import Mathlib

/-
Shallow embedding of the conjunction-detection pipeline of the
toy-collision-avoidance repository (package ca_proto: geometry.py,
screening.py, refine.py), with the theorems that settle the frozen claims.

Modelling conventions, used throughout:

- A floating-point value that may be NaN or infinite is modelled as
  Option ℚ: none stands for any non-finite float (NaN or ±inf, the values
  np.isfinite rejects) and some q for the finite value q.  Arithmetic on
  such values is poisoning, as in IEEE arithmetic: any non-finite operand
  makes the result non-finite.

- Euclidean norms are carried as their exact squares.  The source computes
  d = np.linalg.norm(...); since x ↦ √x is strictly monotone on [0, ∞),
  minima, argmin indices, tie-breaks, sort orders of norms and threshold
  comparisons (d < s ⟺ 0 ≤ s ∧ d·d < s·s, for d = √(d²) ≥ 0) are exactly
  represented on the squares, so every claim about minima or ordering of
  distances is stated and settled on the squared values.  Decimal rounding
  of the float norm (round(dmin, 6)) is a float-display detail with no
  exact counterpart on squares and is not modelled.

- pandas UTC timestamps are modelled by ℚ (seconds since an epoch); the
  source renders them with .isoformat() when writing tables, which is kept
  as the timestamp value itself.

- Fallible code returns Except String; the string names the Python
  exception raised by the source at that point.

- pandas indexing semantics that decide several claims: a trajectory
  DataFrame built by propagate_group or the tests carries the default
  integer RangeIndex, and scalar indexing s[k] on a pandas Series whose
  index holds integers is label-based, never positional.  Slicing
  s[i0 : i1 + 1] is positional and keeps the original labels i0..i1.
-/

deriving instance DecidableEq for Except

/-- A scalar state component: none models a non-finite float (NaN or ±inf). -/
abbrev Val := Option ℚ

/-- Subtraction of possibly non-finite scalars; a non-finite operand poisons the result. -/
def osub : Val → Val → Val
  | some a, some b => some (a - b)
  | _, _ => none

/-- A 3-vector of possibly non-finite components (one row of an (·, 3) numpy array). -/
structure V3 where
  x : Val
  y : Val
  z : Val
deriving DecidableEq

/-- Componentwise difference of two sample vectors (R[i] - R[j]). -/
def v3sub (p q : V3) : V3 := ⟨osub p.x q.x, osub p.y q.y, osub p.z q.z⟩

/-- Squared Euclidean norm of a vector; none models the non-finite float norm, which arises exactly when some component is non-finite. -/
def normSq (v : V3) : Val :=
  match v.x, v.y, v.z with
  | some a, some b, some c => some (a * a + b * b + c * c)
  | _, _, _ => none

/-- Squared separation of two position samples: np.linalg.norm(R[i] - R[j]) in squared form. -/
def relNormSq (p q : V3) : Val := normSq (v3sub p q)

/-- One row of a trajectory DataFrame: columns time, rx_km, ry_km, rz_km, vx_kms, vy_kms, vz_kms. -/
structure Sample where
  t : ℚ
  rx : Val
  ry : Val
  rz : Val
  vx : Val
  vy : Val
  vz : Val
deriving DecidableEq

instance : Inhabited Sample := ⟨⟨0, none, none, none, none, none, none⟩⟩

/-- A trajectory DataFrame: its time-ordered rows. -/
abbrev Traj := List Sample

/-- The position columns of one row. -/
def posOf (s : Sample) : V3 := ⟨s.rx, s.ry, s.rz⟩

/-- The velocity columns of one row. -/
def velOf (s : Sample) : V3 := ⟨s.vx, s.vy, s.vz⟩

/-- Per-step squared separation series of one pair: d = np.linalg.norm(R[i] - R[j], axis=1) in squared form. -/
def distSeq (r s : List V3) : List Val := List.zipWith relNormSq r s

/-- Strict order of the inf-padded scan (d_safe = np.where(np.isfinite(d), d, np.inf)): none plays the role of +inf. -/
def ltInf : Val → Val → Bool
  | some a, some b => decide (a < b)
  | some _, none => true
  | none, _ => false

/-- np.argmin over the inf-padded series: the index of the first occurrence of the minimum together with that minimum (none = +inf).  On the empty series the source raises; geometry reaches it only behind the all-non-finite guard. -/
def argminInf : List Val → Nat × Val
  | [] => (0, none)
  | v :: rest =>
    if ltInf (argminInf rest).2 v then ((argminInf rest).1 + 1, (argminInf rest).2) else (0, v)

/-- Body of the pair loop of pairwise_min_distance: the retained (dmin², idx_min), or none when the pair is dropped (first guard: every step non-finite; second guard: the minimum is still +inf). -/
def minRes (r s : List V3) : Option (ℚ × Nat) :=
  if (distSeq r s).all Option.isNone then none
  else
    match argminInf (distSeq r s) with
    | (idx, some dmin) => some (dmin, idx)
    | (_, none) => none

/-- The nested loops for i in range(N), for j in range(i + 1, N) of pairwise_min_distance, over the list pairing each name with its position rows. -/
def pmdAux : List (String × List V3) → List (String × String × ℚ × Nat)
  | [] => []
  | (n, r) :: rest =>
    (rest.filterMap fun q => (minRes r q.2).map fun dk => (n, q.1, dk.1, dk.2)) ++ pmdAux rest

/-- geometry.pairwise_min_distance: coarse minimum squared separation and its index for every unordered pair.  The source indexes names positionally alongside R; its callers always pass lists of equal length, which List.zip realises. -/
def pairwise_min_distance (names : List String) (R : List (List V3)) :
    List (String × String × ℚ × Nat) :=
  pmdAux (names.zip R)

/-- The validation loop of geometry._extract_positions: every trajectory must repeat the reference grid t0 (same length, same values), else ValueError; positions are collected into the (N, T, 3) array.  The source also rejects a frame without a time column, which the fixed Sample schema always has. -/
def extractLoop (t0 : List ℚ) : List (String × Traj) → Except String (List (List V3))
  | [] => .ok []
  | (_, df) :: rest =>
    if df.map Sample.t = t0 then
      match extractLoop t0 rest with
      | .ok rs => .ok ((df.map posOf) :: rs)
      | .error e => .error e
    else .error "time grids differ between satellites; cannot screen coarsely"

/-- geometry._extract_positions: names, stacked positions and the common grid, or ValueError on empty input or a grid mismatch against the first trajectory. -/
def _extract_positions (states : List (String × Traj)) :
    Except String (List String × List (List V3) × List ℚ) :=
  match states with
  | [] => .error "no states given"
  | (n0, df0) :: rest =>
    let t0 := df0.map Sample.t
    match extractLoop t0 ((n0, df0) :: rest) with
    | .ok R => .ok (((n0, df0) :: rest).map Prod.fst, R, t0)
    | .error e => .error e

/-- Exact rendering of the float comparison dmin < screen_km for the nonnegative norm dmin = √d2 kept in squared form. -/
def sqrtLt (d2 s : ℚ) : Bool := decide (0 ≤ s) && decide (d2 < s * s)

/-- One row of the screener output table. -/
structure ScreenRow where
  a : String
  b : String
  dminSq : ℚ
  t_index : Nat
  time_utc : ℚ
deriving DecidableEq

/-- A pandas DataFrame: its column labels and its rows. -/
structure DF (α : Type) where
  cols : List String
  rows : List α
deriving DecidableEq

/-- The screener output schema. -/
def screenCols : List String := ["a", "b", "dmin_km", "t_index", "time_utc"]

/-- Boolean lexicographic order implementing sort_values(["dmin_km", "a", "b"]); comparing squared norms orders exactly as comparing the norms. -/
def screenLe (r s : ScreenRow) : Bool :=
  decide (r.dminSq < s.dminSq) ||
  (decide (r.dminSq = s.dminSq) &&
    (decide (r.a < s.a) || (decide (r.a = s.a) && decide (r.b ≤ s.b))))

/-- The row loop of coarse_screen: keep each tuple with dmin < screen_km, as an output row carrying the rounded distance (kept exact, in squared form), the index, and the timestamp at that index. -/
def screenRows (tuples : List (String × String × ℚ × Nat)) (times : List ℚ)
    (screen_km : ℚ) : List ScreenRow :=
  tuples.filterMap fun tup =>
    if sqrtLt tup.2.2.1 screen_km then
      some ⟨tup.1, tup.2.1, tup.2.2.1, tup.2.2.2, times.getD tup.2.2.2 0⟩
    else none

/-- screening.coarse_screen: extract, compute pair minima, filter by the threshold, and sort.  dminSq carries the exact squared minimum (the source rounds the float norm to 6 decimals for readability, a display detail outside the exact model); time_utc is the grid timestamp at t_index, which is always in range, so the total getD lookup agrees with times[idx]. -/
def coarse_screen (states : List (String × Traj)) (screen_km : ℚ) :
    Except String (DF ScreenRow) :=
  match _extract_positions states with
  | .error e => .error e
  | .ok (names, R, times) =>
    if pairwise_min_distance names R = [] then .ok ⟨screenCols, []⟩
    else
      if screenRows (pairwise_min_distance names R) times screen_km = [] then
        .ok ⟨screenCols, []⟩
      else
        .ok ⟨screenCols,
          (screenRows (pairwise_min_distance names R) times screen_km).mergeSort screenLe⟩

/-- refine._coarse_min_index: argmin of the inf-padded separation over the full grid (List.zipWith realises the columnwise numpy stack; refine_pair has already checked that the grids agree). -/
def _coarse_min_index (df_a df_b : Traj) : Nat :=
  (argminInf (distSeq (df_a.map posOf) (df_b.map posOf))).1

/-- The dictionary refine_pair returns (tca_utc is kept as the timestamp value the source renders with .isoformat(); dca and vrel are squared norms, none for a non-finite float). -/
structure RefineResult where
  tca : ℚ
  dcaSq : Val
  vrelSq : Val
  idx_coarse : Nat
  idx_refined : Nat
deriving DecidableEq

/-- refine.refine_pair.  After the grid check and window clamping (Nat subtraction realises max(0, hint - window)), the degenerate window falls back to the coarse sample at the hint.  Otherwise the source builds t_fine from t_window[0] and t_window[-1]; t_window = times[i0 : i1 + 1] is a pandas Series whose integer labels run i0..i1, and scalar indexing on an integer-labelled Series is label-based, so t_window[0] raises KeyError when i0 ≠ 0 and t_window[-1] always raises KeyError: the interpolation branch never returns.  The model assumes a nonempty grid with hint in range, where the source's times[idx_hint] lookup succeeds. -/
def refine_pair (df_a df_b : Traj) (idx_hint : Option Nat) (window upsample : Nat) :
    Except String RefineResult :=
  if df_a.map Sample.t ≠ df_b.map Sample.t then
    .error "refine_pair requires identical time grids"
  else
    let times := df_a.map Sample.t
    let T := times.length
    let hint := idx_hint.getD (_coarse_min_index df_a df_b)
    let i0 := hint - window
    let i1 := min (T - 1) (hint + window)
    if i1 ≤ i0 then
      let sa := df_a.getD hint default
      let sb := df_b.getD hint default
      .ok ⟨times.getD hint 0, relNormSq (posOf sa) (posOf sb),
        relNormSq (velOf sa) (velOf sb), hint, hint⟩
    else
      if i0 ≠ 0 then .error "KeyError: 0" else .error "KeyError: -1"

/-- One row of the refiner output table (dca and vrel as squared norms; the source rounds the two float norms to 6 decimals for readability, a display detail outside the exact model). -/
structure RefRow where
  a : String
  b : String
  t_index : Nat
  t_idx_refined : Nat
  tca_utc : ℚ
  dcaSq : Val
  vrelSq : Val
deriving DecidableEq

/-- The refiner output schema. -/
def refCols : List String :=
  ["a", "b", "t_index", "t_idx_refined", "tca_utc", "dca_km", "vrel_kms"]

/-- Strict order on possibly non-finite sort keys: a non-finite dca (NaN from the degenerate fallback, or +inf) sorts after every finite value, as in pandas. -/
def ltVal : Val → Val → Bool
  | some a, some b => decide (a < b)
  | some _, none => true
  | _, _ => false

/-- Boolean lexicographic order implementing sort_values(["dca_km", "a", "b"]). -/
def refLe (r s : RefRow) : Bool :=
  ltVal r.dcaSq s.dcaSq ||
  (decide (r.dcaSq = s.dcaSq) &&
    (decide (r.a < s.a) || (decide (r.a = s.a) && decide (r.b ≤ s.b))))

/-- The row loop of refine_candidates: dictionary lookups states[a], states[b] (KeyError when a name is absent), then refine_pair with the committed hint and parameters. -/
def refineRows (states : List (String × Traj)) (window upsample : Nat) :
    List ScreenRow → Except String (List RefRow)
  | [] => .ok []
  | c :: rest =>
    match List.lookup c.a states with
    | none => .error "KeyError: states[a]"
    | some dfa =>
      match List.lookup c.b states with
      | none => .error "KeyError: states[b]"
      | some dfb =>
        match refine_pair dfa dfb (some c.t_index) window upsample with
        | .error e => .error e
        | .ok res =>
          match refineRows states window upsample rest with
          | .error e => .error e
          | .ok rows =>
            .ok (⟨c.a, c.b, c.t_index, res.idx_refined, res.tca, res.dcaSq, res.vrelSq⟩ :: rows)

/-- refine.refine_candidates: build the refined rows, then pd.DataFrame(rows).sort_values(["dca_km", "a", "b"]).  pd.DataFrame of an empty row list carries no columns at all, so sort_values raises KeyError on its first key; with rows present the inferred columns are exactly refCols and the sort succeeds. -/
def refine_candidates (states : List (String × Traj)) (candidates : List ScreenRow)
    (window upsample : Nat) : Except String (DF RefRow) :=
  match refineRows states window upsample candidates with
  | .error e => .error e
  | .ok rows =>
    let cols := if rows = [] then [] else refCols
    if "dca_km" ∈ cols ∧ "a" ∈ cols ∧ "b" ∈ cols then
      .ok ⟨cols, rows.mergeSort refLe⟩
    else .error "KeyError: dca_km"

/-- A heap of float arrays, modelling in-place numpy mutation; an ndarray is a reference, its index into the heap. -/
abbrev Heap := List (List Val)

/-- Read the array behind a reference. -/
def hread (h : Heap) (r : Nat) : List Val := h.getD r []

/-- Overwrite the array behind a reference (an in-place elementwise update pass). -/
def hwrite (h : Heap) (r : Nat) (v : List Val) : Heap := h.set r v

/-- Allocate a fresh array holding v, e.g. the copy made by .to_numpy().astype(float). -/
def halloc (h : Heap) (v : List Val) : Heap × Nat := (h ++ [v], h.length)

/-- The forward-fill loop of _interp_component: y[i] = y[i-1] whenever y[i] is non-finite; the carried value may itself still be non-finite near the head. -/
def ffillAux (prev : Val) : List Val → List Val
  | [] => []
  | none :: rest => prev :: ffillAux prev rest
  | some v :: rest => some v :: ffillAux (some v) rest

/-- Forward fill, entering the list with no carried value. -/
def ffill (ys : List Val) : List Val := ffillAux none ys

/-- The backward-fill loop: y[i] = y[i+1] for non-finite y[i], scanning from the end. -/
def bfill (ys : List Val) : List Val := (ffillAux none ys.reverse).reverse

/-- np.interp: one-dimensional linear interpolation over a strictly increasing sample grid, clamped to the end values outside the grid; non-finite sample values poison the interpolated value, as in float arithmetic. -/
def interp1 : List (ℚ × Val) → ℚ → Val
  | [], _ => none
  | [(_, y0)], _ => y0
  | (x0, y0) :: (x1, y1) :: rest, x =>
    if x ≤ x0 then y0
    else if x ≤ x1 then
      match y0, y1 with
      | some a, some b => some (a + (b - a) * (x - x0) / (x1 - x0))
      | _, _ => none
    else interp1 ((x1, y1) :: rest) x

/-- refine._interp_component on a heap reference: with some non-finite sample, the in-place forward then backward fill loops mutate the array behind yref (each completed pass modelled as one write), and np.interp runs on the filled values; with no finite sample at all the result is all-NaN and nothing is written; with all samples finite, np.interp runs directly. -/
def _interp_component (h : Heap) (t_s : List ℚ) (yref : Nat) (t_new_s : List ℚ) :
    Heap × List Val :=
  let y := hread h yref
  if y.all Option.isSome then (h, t_new_s.map (interp1 (t_s.zip y)))
  else if y.all Option.isNone then (h, t_new_s.map fun _ => none)
  else
    let y1 := ffill y
    let y2 := bfill y1
    let h1 := hwrite (hwrite h yref y1) yref y2
    (h1, t_new_s.map (interp1 (t_s.zip y2)))

/-- A trajectory whose six state columns live in the heap; the time column is held by value since the source only ever reads it (through .view). -/
structure TrajH where
  time : List ℚ
  rx : Nat
  ry : Nat
  rz : Nat
  vx : Nat
  vy : Nat
  vz : Nat

/-- One component line of _interp_state: the fresh copy df[c].to_numpy().astype(float) is allocated, then _interp_component runs, and gap-fills, on that copy only. -/
def interpColumn (h : Heap) (t_s : List ℚ) (src : Nat) (t_new_s : List ℚ) :
    Heap × List Val :=
  let al := halloc h (hread h src)
  _interp_component al.1 t_s al.2 t_new_s

/-- np.stack([...], axis=1) for three equally long component lists. -/
def stack3 : List Val → List Val → List Val → List V3
  | a :: ar, b :: br, c :: cr => ⟨a, b, c⟩ :: stack3 ar br cr
  | _, _, _ => []

/-- refine._interp_state: times in seconds relative to the first timestamp, six independent component interpolations, each on a fresh copy of its column, stacked into position and velocity rows. -/
def _interp_state (h : Heap) (df : TrajH) (t_new : List ℚ) : Heap × List V3 × List V3 :=
  let t0 := df.time.headD 0
  let t_s := df.time.map fun t => t - t0
  let t_new_s := t_new.map fun t => t - t0
  let prx := interpColumn h t_s df.rx t_new_s
  let pry := interpColumn prx.1 t_s df.ry t_new_s
  let prz := interpColumn pry.1 t_s df.rz t_new_s
  let pvx := interpColumn prz.1 t_s df.vx t_new_s
  let pvy := interpColumn pvx.1 t_s df.vy t_new_s
  let pvz := interpColumn pvy.1 t_s df.vz t_new_s
  (pvz.1, stack3 prx.2 pry.2 prz.2, stack3 pvx.2 pvy.2 pvz.2)

/-- Read a heap trajectory into the row-sequence form the pure functions consume. -/
def materialize (h : Heap) (d : TrajH) : Traj :=
  (List.range d.time.length).map fun k =>
    ⟨d.time.getD k 0, (hread h d.rx).getD k none, (hread h d.ry).getD k none,
      (hread h d.rz).getD k none, (hread h d.vx).getD k none, (hread h d.vy).getD k none,
      (hread h d.vz).getD k none⟩

/-- refine.refine_pair against heap-held trajectories.  Both reachable branches of the source only read: the degenerate-window branch returns scalar reads, and the interpolation branch raises its KeyError while building t_fine, before _interp_state (and hence any gap-fill write) can run; so the heap passes through unchanged. -/
def refinePairH (h : Heap) (da db : TrajH) (idx_hint : Option Nat) (window upsample : Nat) :
    Heap × Except String RefineResult :=
  (h, refine_pair (materialize h da) (materialize h db) idx_hint window upsample)

/-- refine.refine_candidates against a heap-held trajectory store; as with refinePairH, no reachable path writes to the heap. -/
def refineCandidatesH (h : Heap) (states : List (String × TrajH)) (candidates : List ScreenRow)
    (window upsample : Nat) : Heap × Except String (DF RefRow) :=
  (h, refine_candidates (states.map fun p => (p.1, materialize h p.2)) candidates window upsample)

/-- Specification side: all unordered pairs of list elements, first components in scan order, i strictly before j. -/
def pairsOf : List (String × List V3) → List ((String × List V3) × (String × List V3))
  | [] => []
  | x :: rest => (rest.map fun y => (x, y)) ++ pairsOf rest

/-- Specification side: the minimum of a list of rationals, used for the true minimum of the per-step squared norms over the finite steps. -/
def listMin : List ℚ → Option ℚ
  | [] => none
  | q :: rest =>
    match listMin rest with
    | none => some q
    | some m => some (if q ≤ m then q else m)

/-- Specification side: a pair every step of which is non-finite (the pairs the spec says are dropped). -/
def allInvalid (r s : List V3) : Bool := (distSeq r s).all Option.isNone

/-- The extended strict order is irreflexive. -/
theorem ltInf_irrefl (a : Val) : ltInf a a = false := by
  cases a <;> simp [ltInf]

/-- The extended strict order is asymmetric. -/
theorem ltInf_asymm {a b : Val} (h : ltInf a b = true) : ltInf b a = false := by
  cases a <;> cases b <;> simp_all [ltInf] <;> linarith

/-- Transitivity of the reflexive companion of the extended strict order. -/
theorem ltInf_false_trans {a b c : Val} (h1 : ltInf a b = false) (h2 : ltInf b c = false) :
    ltInf a c = false := by
  cases a <;> cases b <;> cases c <;> simp_all [ltInf] <;> linarith

/-- The argmin of a nonempty series is in range. -/
theorem argminInf_fst_lt : ∀ (d : List Val), d ≠ [] → (argminInf d).1 < d.length := by
  intro d
  induction d with
  | nil => simp
  | cons v rest ih =>
    intro _
    by_cases hlt : ltInf (argminInf rest).2 v = true
    · have hne : rest ≠ [] := by
        intro h0
        rw [h0] at hlt
        simp [argminInf, ltInf] at hlt
      simp only [argminInf, hlt, if_true, List.length_cons]
      exact Nat.succ_lt_succ (ih hne)
    · simp [argminInf, hlt]

/-- The returned minimum is the series value at the returned index. -/
theorem argminInf_get : ∀ (d : List Val), d ≠ [] →
    d.getD (argminInf d).1 none = (argminInf d).2 := by
  intro d
  induction d with
  | nil => simp
  | cons v rest ih =>
    intro _
    by_cases hlt : ltInf (argminInf rest).2 v = true
    · have hne : rest ≠ [] := by
        intro h0
        rw [h0] at hlt
        simp [argminInf, ltInf] at hlt
      simp only [argminInf, hlt, if_true, List.getD_cons_succ]
      exact ih hne
    · simp [argminInf, hlt]

/-- No series entry is strictly below the returned minimum. -/
theorem argminInf_le : ∀ (d : List Val) (t : Nat), t < d.length →
    ltInf (d.getD t none) (argminInf d).2 = false := by
  intro d
  induction d with
  | nil => intro t ht; simp at ht
  | cons v rest ih =>
    intro t ht
    by_cases hlt : ltInf (argminInf rest).2 v = true
    · cases t with
      | zero =>
        simp only [argminInf, hlt, if_true, List.getD_cons_zero]
        exact ltInf_asymm hlt
      | succ t =>
        simp only [argminInf, hlt, if_true, List.getD_cons_succ]
        exact ih t (Nat.lt_of_succ_lt_succ ht)
    · have hlt2 : ltInf (argminInf rest).2 v = false := by
        simpa using hlt
      cases t with
      | zero =>
        simp only [argminInf, hlt2, Bool.false_eq_true, if_false, List.getD_cons_zero]
        exact ltInf_irrefl v
      | succ t =>
        simp only [argminInf, hlt2, Bool.false_eq_true, if_false, List.getD_cons_succ]
        exact ltInf_false_trans (ih t (Nat.lt_of_succ_lt_succ ht)) hlt2

/-- Every series entry strictly before the returned index lies strictly above the minimum: the scan keeps the first occurrence. -/
theorem argminInf_first : ∀ (d : List Val) (t : Nat), t < (argminInf d).1 →
    ltInf (argminInf d).2 (d.getD t none) = true := by
  intro d
  induction d with
  | nil => intro t ht; simp [argminInf] at ht
  | cons v rest ih =>
    intro t ht
    by_cases hlt : ltInf (argminInf rest).2 v = true
    · cases t with
      | zero =>
        simp only [argminInf, hlt, if_true, List.getD_cons_zero]
      | succ t =>
        simp only [argminInf, hlt, if_true, List.getD_cons_succ]
        simp only [argminInf, hlt, if_true] at ht
        exact ih t (Nat.lt_of_succ_lt_succ ht)
    · simp only [argminInf, hlt] at ht
      simp at ht

/-- On a series with a finite entry the scan returns a finite minimum. -/
theorem argminInf_isSome {d : List Val} (h : d.all Option.isNone = false) :
    ((argminInf d).2).isSome = true := by
  have hx : ∃ x ∈ d, ¬ Option.isNone x = true := by
    simpa [List.all_eq_true] using h
  obtain ⟨x, hxd, hxn⟩ := hx
  obtain ⟨q, rfl⟩ : ∃ q, x = some q := by
    cases x with
    | none => simp at hxn
    | some q => exact ⟨q, rfl⟩
  obtain ⟨t, ht, hget⟩ := List.mem_iff_getElem.mp hxd
  have hle := argminInf_le d t ht
  rw [List.getD_eq_getElem d none ht, hget] at hle
  cases hv : (argminInf d).2 with
  | none => rw [hv] at hle; simp [ltInf] at hle
  | some m => simp

/-- The specification-side minimum picks a member of the list. -/
theorem listMin_mem : ∀ {l : List ℚ} {m : ℚ}, listMin l = some m → m ∈ l := by
  intro l
  induction l with
  | nil => intro m h; simp [listMin] at h
  | cons q rest ih =>
    intro m h
    cases hr : listMin rest with
    | none =>
      simp only [listMin, hr] at h
      have hqm : q = m := by simpa using h
      rw [← hqm]
      exact List.mem_cons_self q rest
    | some m0 =>
      simp only [listMin, hr] at h
      have hmm : min q m0 = m := by
        rw [min_def]
        simpa using h
      rcases le_total q m0 with hle | hle
      · rw [min_eq_left hle] at hmm
        rw [← hmm]
        exact List.mem_cons_self q rest
      · rw [min_eq_right hle] at hmm
        rw [← hmm]
        exact List.mem_cons_of_mem q (ih hr)

/-- The specification-side minimum is only none on the empty list. -/
theorem listMin_eq_none : ∀ {l : List ℚ}, listMin l = none ↔ l = [] := by
  intro l
  cases l with
  | nil => simp [listMin]
  | cons q rest => cases hr : listMin rest <;> simp [listMin, hr]

/-- The specification-side minimum is a lower bound of the list. -/
theorem listMin_le : ∀ {l : List ℚ} {m : ℚ}, listMin l = some m → ∀ q ∈ l, m ≤ q := by
  intro l
  induction l with
  | nil => intro m h; simp [listMin] at h
  | cons q rest ih =>
    intro m h x hx
    cases hr : listMin rest with
    | none =>
      have hrest : rest = [] := listMin_eq_none.mp hr
      subst hrest
      simp only [listMin] at h
      have hqm : q = m := by simpa using h
      have hxq : x = q := by simpa using hx
      rw [hxq, hqm]
    | some m0 =>
      simp only [listMin, hr] at h
      have hmm : min q m0 = m := by
        rw [min_def]
        simpa using h
      rcases List.mem_cons.mp hx with hxq | hx2
      · rw [hxq, ← hmm]
        exact min_le_left _ _
      · calc m = min q m0 := hmm.symm
          _ ≤ m0 := min_le_right _ _
          _ ≤ x := ih hr x hx2

/-- The pair loop body computes exactly the true minimum over the finite steps, at its first index. -/
theorem minRes_eq_true_min {r s : List V3} {m : ℚ}
    (hm : listMin ((distSeq r s).filterMap id) = some m) :
    ∃ k, minRes r s = some (m, k) ∧ k < (distSeq r s).length ∧
      (distSeq r s).getD k none = some m ∧
      ∀ t, t < k → (distSeq r s).getD t none ≠ some m := by
  have hmem : some m ∈ distSeq r s := by
    rcases List.mem_filterMap.mp (listMin_mem hm) with ⟨a, had, hid⟩
    have : a = some m := by simpa using hid
    rw [← this]
    exact had
  have hnall : (distSeq r s).all Option.isNone = false := by
    cases hall : (distSeq r s).all Option.isNone with
    | false => rfl
    | true =>
      have := List.all_eq_true.mp hall (some m) hmem
      simp at this
  have hne : distSeq r s ≠ [] := by
    intro h0
    rw [h0] at hmem
    simp at hmem
  have hklt := argminInf_fst_lt (distSeq r s) hne
  have hget := argminInf_get (distSeq r s) hne
  obtain ⟨mu, hmu⟩ := Option.isSome_iff_exists.mp (argminInf_isSome hnall)
  have hmum : mu = m := by
    have hmumem : mu ∈ (distSeq r s).filterMap id := by
      apply List.mem_filterMap.mpr
      refine ⟨some mu, ?_, rfl⟩
      rw [← hmu, ← hget, List.getD_eq_getElem _ _ hklt]
      exact List.getElem_mem hklt
    have h1 : m ≤ mu := listMin_le hm mu hmumem
    obtain ⟨t, ht, hgt⟩ := List.mem_iff_getElem.mp hmem
    have h2 := argminInf_le (distSeq r s) t ht
    rw [List.getD_eq_getElem _ _ ht, hgt, hmu] at h2
    have h3 : ¬ m < mu := by simpa [ltInf] using h2
    linarith
  have hav : argminInf (distSeq r s) = ((argminInf (distSeq r s)).1, some m) := by
    rw [← hmum, ← hmu]
  refine ⟨(argminInf (distSeq r s)).1, ?_, hklt, ?_, ?_⟩
  · unfold minRes
    rw [hnall, hav]
    rfl
  · rw [hget, hmu, hmum]
  · intro t htk hcontra
    have hfirst := argminInf_first (distSeq r s) t htk
    rw [hmu, hmum, hcontra] at hfirst
    simp [ltInf] at hfirst

/-- For indices i < j the corresponding element pair is produced by the unordered pair scan. -/
theorem pairsOf_get_mem : ∀ (sats : List (String × List V3)) (i j : Nat), i < j →
    j < sats.length →
    (sats.getD i ("", []), sats.getD j ("", [])) ∈ pairsOf sats := by
  intro sats
  induction sats with
  | nil => intro i j _ hj; simp at hj
  | cons x rest ih =>
    intro i j hij hj
    cases i with
    | zero =>
      cases j with
      | zero => omega
      | succ j2 =>
        simp only [pairsOf, List.getD_cons_zero, List.getD_cons_succ]
        apply List.mem_append_left
        apply List.mem_map.mpr
        refine ⟨rest.getD j2 ("", []), ?_, rfl⟩
        have hj2 : j2 < rest.length := by simpa using hj
        rw [List.getD_eq_getElem _ _ hj2]
        exact List.getElem_mem hj2
    | succ i2 =>
      cases j with
      | zero => omega
      | succ j2 =>
        simp only [pairsOf, List.getD_cons_succ]
        apply List.mem_append_right
        exact ih i2 j2 (by omega) (by simpa using hj)

/-- The nested pair loops are the unordered pair scan filtered through the loop body. -/
theorem pmdAux_eq : ∀ (sats : List (String × List V3)),
    pmdAux sats = (pairsOf sats).filterMap
      (fun p => (minRes p.1.2 p.2.2).map fun dk => (p.1.1, p.2.1, dk.1, dk.2)) := by
  intro sats
  induction sats with
  | nil => rfl
  | cons x rest ih =>
    rcases x with ⟨n, r⟩
    simp only [pmdAux, pairsOf, List.filterMap_append, List.filterMap_map, ih]
    rfl

/-- Reading an index below both lengths through the zip. -/
theorem getD_zip_eq (l1 : List String) (l2 : List (List V3)) (i : Nat)
    (h1 : i < l1.length) (h2 : i < l2.length) :
    (l1.zip l2).getD i ("", []) = (l1.getD i "", l2.getD i []) := by
  have hz : i < (l1.zip l2).length := by
    rw [List.length_zip]
    exact lt_min h1 h2
  rw [List.getD_eq_getElem _ _ hz, List.getElem_zip, List.getD_eq_getElem _ _ h1,
    List.getD_eq_getElem _ _ h2]

/-- C1: for every pair i < j of trajectories on the common grid with at least one finite step, pairwise_min_distance returns for that pair the true minimum of the per-step separation over exactly the finite steps (carried as squared norms, which represent the Euclidean norms exactly for minima and ties), together with the lowest index attaining it. -/
theorem pairwise_min_distance_returns_true_min
    (names : List String) (R : List (List V3)) (i j : Nat) (m : ℚ)
    (hlen : names.length = R.length) (hij : i < j) (hj : j < R.length)
    (hm : listMin ((distSeq (R.getD i []) (R.getD j [])).filterMap id) = some m) :
    ∃ k, (names.getD i "", names.getD j "", m, k) ∈ pairwise_min_distance names R ∧
      k < (distSeq (R.getD i []) (R.getD j [])).length ∧
      (distSeq (R.getD i []) (R.getD j [])).getD k none = some m ∧
      ∀ t, t < k → (distSeq (R.getD i []) (R.getD j [])).getD t none ≠ some m := by
  obtain ⟨k, hmin, hk, hget, hfirst⟩ := minRes_eq_true_min hm
  refine ⟨k, ?_, hk, hget, hfirst⟩
  have hj1 : j < names.length := by omega
  have hi1 : i < names.length := by omega
  have hi2 : i < R.length := by omega
  have hz : j < (names.zip R).length := by
    rw [List.length_zip]
    exact lt_min hj1 hj
  have hpair := pairsOf_get_mem (names.zip R) i j hij hz
  rw [getD_zip_eq names R i hi1 hi2, getD_zip_eq names R j hj1 hj] at hpair
  unfold pairwise_min_distance
  rw [pmdAux_eq]
  apply List.mem_filterMap.mpr
  refine ⟨((names.getD i "", R.getD i []), (names.getD j "", R.getD j [])), hpair, ?_⟩
  show (minRes (R.getD i []) (R.getD j [])).map
      (fun dk => (names.getD i "", names.getD j "", dk.1, dk.2)) =
    some (names.getD i "", names.getD j "", m, k)
  rw [hmin]
  rfl

/-- Concrete geometry input for the C1 witness: A at the origin, B on the x axis at 3 then 1 km. -/
def wNamesC1 : List String := ["A", "B"]

/-- Concrete position rows for the C1 witness. -/
def wRC1 : List (List V3) :=
  [[⟨some 0, some 0, some 0⟩, ⟨some 0, some 0, some 0⟩],
   [⟨some 3, some 0, some 0⟩, ⟨some 1, some 0, some 0⟩]]

/-- C1 witness: the theorem applied at a concrete input, every hypothesis discharged by evaluation. -/
theorem pairwise_min_distance_returns_true_min_witness :
    (wNamesC1.length = wRC1.length ∧ 0 < 1 ∧ 1 < wRC1.length ∧
      listMin ((distSeq (wRC1.getD 0 []) (wRC1.getD 1 [])).filterMap id) = some 1) ∧
    (∃ k, (wNamesC1.getD 0 "", wNamesC1.getD 1 "", (1 : ℚ), k) ∈
        pairwise_min_distance wNamesC1 wRC1 ∧
      k < (distSeq (wRC1.getD 0 []) (wRC1.getD 1 [])).length ∧
      (distSeq (wRC1.getD 0 []) (wRC1.getD 1 [])).getD k none = some 1 ∧
      ∀ t, t < k → (distSeq (wRC1.getD 0 []) (wRC1.getD 1 [])).getD t none ≠ some 1) :=
  ⟨⟨by decide, by decide, by decide,
      by norm_num [listMin, distSeq, relNormSq, v3sub, osub, normSq, wRC1]⟩,
    pairwise_min_distance_returns_true_min wNamesC1 wRC1 0 1 1 (by decide) (by decide)
      (by decide)
      (by norm_num [listMin, distSeq, relNormSq, v3sub, osub, normSq, wRC1])⟩

/-- A pair is dropped by the loop body exactly when every step is non-finite. -/
theorem minRes_eq_none_iff (r s : List V3) : minRes r s = none ↔ allInvalid r s = true := by
  unfold allInvalid
  constructor
  · intro h
    cases hall : (distSeq r s).all Option.isNone with
    | true => rfl
    | false =>
      exfalso
      obtain ⟨mu, hmu⟩ := Option.isSome_iff_exists.mp (argminInf_isSome hall)
      have hav : argminInf (distSeq r s) = ((argminInf (distSeq r s)).1, some mu) := by
        rw [← hmu]
      unfold minRes at h
      rw [hall, hav] at h
      simp at h
  · intro h
    unfold minRes
    rw [h]
    simp

/-- A filterMap whose body drops by a Boolean test is the mapped filter of the complement. -/
theorem filterMap_ite_eq_map_filter {α β : Type} (c : α → Bool) (g : α → β) :
    ∀ l : List α, (l.filterMap fun p => if c p then none else some (g p)) =
      (l.filter fun p => ! c p).map g := by
  intro l
  induction l with
  | nil => rfl
  | cons x rest ih =>
    by_cases hc : c x = true
    · simp [List.filterMap_cons, List.filter_cons, hc, ih]
    · simp [List.filterMap_cons, List.filter_cons, hc, ih]

/-- Both components of a scanned pair are elements of the scanned list. -/
theorem pairsOf_mem_both : ∀ (sats : List (String × List V3)) (p),
    p ∈ pairsOf sats → p.1 ∈ sats ∧ p.2 ∈ sats := by
  intro sats
  induction sats with
  | nil => intro p hp; simp [pairsOf] at hp
  | cons x rest ih =>
    intro p hp
    rcases List.mem_append.mp hp with h1 | h2
    · rcases List.mem_map.mp h1 with ⟨y, hy, hpy⟩
      rw [← hpy]
      exact ⟨List.mem_cons_self x rest, List.mem_cons_of_mem x hy⟩
    · obtain ⟨ha, hb⟩ := ih p h2
      exact ⟨List.mem_cons_of_mem x ha, List.mem_cons_of_mem x hb⟩

/-- With pairwise distinct names the projected pair scan has no duplicates. -/
theorem pairsOf_proj_nodup : ∀ (sats : List (String × List V3)),
    (sats.map Prod.fst).Nodup → ((pairsOf sats).map fun p => (p.1.1, p.2.1)).Nodup := by
  intro sats
  induction sats with
  | nil => intro _; simp [pairsOf]
  | cons x rest ih =>
    intro h
    simp only [List.map_cons, List.nodup_cons] at h
    obtain ⟨hx, hrest⟩ := h
    simp only [pairsOf, List.map_append, List.map_map]
    apply List.Nodup.append
    · have heq : rest.map ((fun p : (String × List V3) × (String × List V3) =>
            (p.1.1, p.2.1)) ∘ fun y => (x, y)) =
          (rest.map Prod.fst).map fun n => (x.1, n) := by
        rw [List.map_map]
        rfl
      rw [heq]
      exact hrest.map fun a b hab => congrArg Prod.snd hab
    · exact ih hrest
    · intro el hel1 hel2
      rcases List.mem_map.mp hel1 with ⟨y, _, hpy⟩
      rcases List.mem_map.mp hel2 with ⟨p, hp, hpp⟩
      have h1 : el.1 = x.1 := by
        rw [← hpy]
        rfl
      have h2 : el.1 = p.1.1 := by
        rw [← hpp]
      have hmem1 : p.1 ∈ rest := (pairsOf_mem_both rest p hp).1
      apply hx
      rw [← h1, h2]
      exact List.mem_map.mpr ⟨p.1, hmem1, rfl⟩

/-- The unordered pair scan has N(N-1)/2 entries. -/
theorem pairsOf_length_twice : ∀ (sats : List (String × List V3)),
    2 * (pairsOf sats).length = sats.length * (sats.length - 1) := by
  intro sats
  induction sats with
  | nil => rfl
  | cons x rest ih =>
    simp only [pairsOf, List.length_append, List.length_map, List.length_cons]
    have h2 : 2 * (rest.length + (pairsOf rest).length) =
        2 * rest.length + 2 * (pairsOf rest).length := by ring
    rw [h2, ih]
    cases hn : rest.length with
    | zero => rfl
    | succ m =>
      simp only [Nat.add_sub_cancel]
      ring

/-- C5: the geometry engine emits each unordered pair exactly once, in scan order, omitting exactly the pairs that are non-finite at every step; with no such pair the output has N(N-1)/2 entries, and the emitted name pairs are never duplicated. -/
theorem pairwise_min_distance_pair_coverage
    (names : List String) (R : List (List V3))
    (hlen : names.length = R.length) (hnd : names.Nodup) :
    ((pairwise_min_distance names R).map fun r => (r.1, r.2.1)) =
      ((pairsOf (names.zip R)).filterMap fun p =>
        if allInvalid p.1.2 p.2.2 then none else some (p.1.1, p.2.1)) ∧
    ((pairwise_min_distance names R).map fun r => (r.1, r.2.1)).Nodup ∧
    (pairwise_min_distance names R).length +
      ((pairsOf (names.zip R)).countP fun p => allInvalid p.1.2 p.2.2) =
      (pairsOf (names.zip R)).length ∧
    2 * (pairsOf (names.zip R)).length = R.length * (R.length - 1) := by
  have hfun : (fun p => Option.map (fun r => (r.1, r.2.1))
        ((minRes p.1.2 p.2.2).map fun dk => (p.1.1, p.2.1, dk.1, dk.2))) =
      (fun p : (String × List V3) × (String × List V3) =>
        if allInvalid p.1.2 p.2.2 then none else some (p.1.1, p.2.1)) := by
    funext p
    cases hmr : minRes p.1.2 p.2.2 with
    | none =>
      have := (minRes_eq_none_iff p.1.2 p.2.2).mp hmr
      rw [this]
      rfl
    | some dk =>
      have hni : allInvalid p.1.2 p.2.2 = false := by
        cases hai : allInvalid p.1.2 p.2.2 with
        | false => rfl
        | true =>
          have := (minRes_eq_none_iff p.1.2 p.2.2).mpr hai
          rw [this] at hmr
          exact absurd hmr (by simp)
      rw [hni]
      rfl
  have hproj : ((pairwise_min_distance names R).map fun r => (r.1, r.2.1)) =
      ((pairsOf (names.zip R)).filterMap fun p =>
        if allInvalid p.1.2 p.2.2 then none else some (p.1.1, p.2.1)) := by
    unfold pairwise_min_distance
    rw [pmdAux_eq, List.map_filterMap, hfun]
  refine ⟨hproj, ?_, ?_, ?_⟩
  · rw [hproj, filterMap_ite_eq_map_filter]
    have hsub : List.Sublist
        (((pairsOf (names.zip R)).filter fun p => ! allInvalid p.1.2 p.2.2).map
          fun p => (p.1.1, p.2.1))
        ((pairsOf (names.zip R)).map fun p => (p.1.1, p.2.1)) :=
      (List.filter_sublist _).map _
    apply List.Nodup.sublist hsub
    apply pairsOf_proj_nodup
    rw [List.map_fst_zip names R (le_of_eq hlen)]
    exact hnd
  · have hlenmap : (pairwise_min_distance names R).length =
        ((pairwise_min_distance names R).map fun r => (r.1, r.2.1)).length := by
      rw [List.length_map]
    rw [hlenmap, hproj, filterMap_ite_eq_map_filter, List.length_map,
      ← List.countP_eq_length_filter]
    have hsplit := List.length_eq_countP_add_countP
      (fun p : (String × List V3) × (String × List V3) => allInvalid p.1.2 p.2.2)
      (pairsOf (names.zip R))
    have hnot : (List.countP
          (fun p : (String × List V3) × (String × List V3) =>
            decide ¬ allInvalid p.1.2 p.2.2 = true) (pairsOf (names.zip R))) =
        (List.countP (fun p : (String × List V3) × (String × List V3) =>
          ! allInvalid p.1.2 p.2.2) (pairsOf (names.zip R))) := by
      apply List.countP_congr
      intro p _
      cases allInvalid p.1.2 p.2.2 <;> simp
    rw [hnot] at hsplit
    omega
  · rw [pairsOf_length_twice, List.length_zip, hlen, min_self]

/-- Concrete geometry input for the C5 witness: satellite A has an all-invalid trajectory, so the single pair is dropped. -/
def wNamesC5 : List String := ["A", "B"]

/-- Concrete position rows for the C5 witness. -/
def wRC5 : List (List V3) := [[⟨none, none, none⟩], [⟨some 1, some 0, some 0⟩]]

/-- C5 witness: the theorem applied at a concrete input, hypotheses discharged by evaluation. -/
theorem pairwise_min_distance_pair_coverage_witness :
    (wNamesC5.length = wRC5.length ∧ wNamesC5.Nodup) ∧
    (((pairwise_min_distance wNamesC5 wRC5).map fun r => (r.1, r.2.1)) =
        ((pairsOf (wNamesC5.zip wRC5)).filterMap fun p =>
          if allInvalid p.1.2 p.2.2 then none else some (p.1.1, p.2.1)) ∧
      ((pairwise_min_distance wNamesC5 wRC5).map fun r => (r.1, r.2.1)).Nodup ∧
      (pairwise_min_distance wNamesC5 wRC5).length +
        ((pairsOf (wNamesC5.zip wRC5)).countP fun p => allInvalid p.1.2 p.2.2) =
        (pairsOf (wNamesC5.zip wRC5)).length ∧
      2 * (pairsOf (wNamesC5.zip wRC5)).length = wRC5.length * (wRC5.length - 1)) :=
  ⟨⟨by decide, by decide⟩,
    pairwise_min_distance_pair_coverage wNamesC5 wRC5 (by decide) (by decide)⟩

/-- A filterMap whose body keeps by a Boolean test is the mapped filter of that test. -/
theorem filterMap_ite_pos_eq_map_filter {α β : Type} (c : α → Bool) (g : α → β) :
    ∀ l : List α, (l.filterMap fun p => if c p then some (g p) else none) =
      (l.filter c).map g := by
  intro l
  induction l with
  | nil => rfl
  | cons x rest ih =>
    by_cases hc : c x = true
    · simp [List.filterMap_cons, List.filter_cons, hc, ih]
    · simp [List.filterMap_cons, List.filter_cons, hc, ih]

/-- The screening sort key order is transitive. -/
theorem screenLe_trans (a b c : ScreenRow) (h1 : screenLe a b = true)
    (h2 : screenLe b c = true) : screenLe a c = true := by
  simp only [screenLe, Bool.or_eq_true, Bool.and_eq_true, decide_eq_true_eq] at h1 h2 ⊢
  rcases h1 with h1 | ⟨h1e, h1s⟩
  · rcases h2 with h2 | ⟨h2e, _⟩
    · exact Or.inl (lt_trans h1 h2)
    · exact Or.inl (by rw [← h2e]; exact h1)
  · rcases h2 with h2 | ⟨h2e, h2s⟩
    · exact Or.inl (by rw [h1e]; exact h2)
    · refine Or.inr ⟨by rw [h1e, h2e], ?_⟩
      rcases h1s with h1s | ⟨h1a, h1b⟩
      · rcases h2s with h2s | ⟨h2a, _⟩
        · exact Or.inl (lt_trans h1s h2s)
        · exact Or.inl (by rw [← h2a]; exact h1s)
      · rcases h2s with h2s | ⟨h2a, h2b⟩
        · exact Or.inl (by rw [h1a]; exact h2s)
        · exact Or.inr ⟨by rw [h1a, h2a], le_trans h1b h2b⟩

/-- The screening sort key order is total. -/
theorem screenLe_total (a b : ScreenRow) : (screenLe a b || screenLe b a) = true := by
  simp only [screenLe, Bool.or_eq_true, Bool.and_eq_true, decide_eq_true_eq]
  rcases lt_trichotomy a.dminSq b.dminSq with h | h | h
  · exact Or.inl (Or.inl h)
  · rcases lt_trichotomy a.a b.a with h2 | h2 | h2
    · exact Or.inl (Or.inr ⟨h, Or.inl h2⟩)
    · rcases le_total a.b b.b with h3 | h3
      · exact Or.inl (Or.inr ⟨h, Or.inr ⟨h2, h3⟩⟩)
      · exact Or.inr (Or.inr ⟨h.symm, Or.inr ⟨h2.symm, h3⟩⟩)
    · exact Or.inr (Or.inr ⟨h.symm, Or.inl h2⟩)
  · exact Or.inr (Or.inl h)

/-- C4: whenever extraction succeeds, coarse_screen succeeds with the full output schema, its rows are exactly the engine tuples whose minimum separation is strictly below the threshold (each carrying its distance, index and grid timestamp), and they are sorted ascending by distance, then by the A name, then by the B name. -/
theorem coarse_screen_exact_threshold_sorted
    (states : List (String × Traj)) (s : ℚ) (names : List String)
    (R : List (List V3)) (times : List ℚ)
    (hex : _extract_positions states = .ok (names, R, times)) :
    ∃ tbl, coarse_screen states s = .ok tbl ∧
      tbl.cols = screenCols ∧
      tbl.rows.Perm (((pairwise_min_distance names R).filter fun tup =>
          sqrtLt tup.2.2.1 s).map fun tup =>
        ⟨tup.1, tup.2.1, tup.2.2.1, tup.2.2.2, times.getD tup.2.2.2 0⟩) ∧
      List.Pairwise (fun r1 r2 => screenLe r1 r2 = true) tbl.rows := by
  have hrowseq : screenRows (pairwise_min_distance names R) times s =
      ((pairwise_min_distance names R).filter fun tup => sqrtLt tup.2.2.1 s).map fun tup =>
        ⟨tup.1, tup.2.1, tup.2.2.1, tup.2.2.2, times.getD tup.2.2.2 0⟩ :=
    filterMap_ite_pos_eq_map_filter _ _ _
  simp only [coarse_screen, hex]
  by_cases h0 : pairwise_min_distance names R = []
  · rw [if_pos h0]
    refine ⟨⟨screenCols, []⟩, rfl, rfl, ?_, List.Pairwise.nil⟩
    rw [h0]
    exact List.Perm.nil
  · rw [if_neg h0]
    by_cases h1 : screenRows (pairwise_min_distance names R) times s = []
    · rw [if_pos h1]
      refine ⟨⟨screenCols, []⟩, rfl, rfl, ?_, List.Pairwise.nil⟩
      rw [← hrowseq, h1]
    · rw [if_neg h1]
      refine ⟨_, rfl, rfl, ?_, ?_⟩
      · rw [← hrowseq]
        exact List.mergeSort_perm _ _
      · exact List.sorted_mergeSort screenLe_trans
          (fun x y => screenLe_total x y) _

/-- C8: when extraction succeeds and no retained pair beats the threshold, the screener returns an empty table still carrying the full column schema. -/
theorem coarse_screen_empty_schema
    (states : List (String × Traj)) (s : ℚ) (names : List String)
    (R : List (List V3)) (times : List ℚ)
    (hex : _extract_positions states = .ok (names, R, times))
    (hall : ∀ tup ∈ pairwise_min_distance names R, sqrtLt tup.2.2.1 s = false) :
    coarse_screen states s = .ok ⟨screenCols, []⟩ := by
  simp only [coarse_screen, hex]
  by_cases h0 : pairwise_min_distance names R = []
  · rw [if_pos h0]
  · rw [if_neg h0]
    have h1 : screenRows (pairwise_min_distance names R) times s = [] := by
      apply List.filterMap_eq_nil.mpr
      intro tup htup
      rw [hall tup htup]
      rfl
    rw [if_pos h1]

/-- A finite squared norm is nonnegative. -/
theorem normSq_nonneg {v : V3} {c : ℚ} (h : normSq v = some c) : 0 ≤ c := by
  rcases v with ⟨x, y, z⟩
  cases x <;> cases y <;> cases z <;>
    simp only [normSq, Option.some.injEq] at h
  all_goals try exact h.elim
  all_goals try exact absurd h (by simp)
  rename_i a b c2
  rw [← h]
  nlinarith [mul_self_nonneg a, mul_self_nonneg b, mul_self_nonneg c2]

/-- Any member of a zipWith comes from members of the two lists. -/
theorem exists_of_mem_zipWith {α β γ : Type} {f : α → β → γ} :
    ∀ {l1 : List α} {l2 : List β} {x : γ}, x ∈ List.zipWith f l1 l2 →
      ∃ a b, a ∈ l1 ∧ b ∈ l2 ∧ x = f a b := by
  intro l1
  induction l1 with
  | nil => intro l2 x hx; simp at hx
  | cons a as ih =>
    intro l2 x hx
    cases l2 with
    | nil => simp at hx
    | cons b bs =>
      rcases List.mem_cons.mp hx with hx1 | hx2
      · exact ⟨a, b, List.mem_cons_self _ _, List.mem_cons_self _ _, hx1⟩
      · obtain ⟨a2, b2, ha, hb, hf⟩ := ih hx2
        exact ⟨a2, b2, List.mem_cons_of_mem _ ha, List.mem_cons_of_mem _ hb, hf⟩

/-- A retained pair minimum is nonnegative and its index addresses the separation series. -/
theorem minRes_some_bounds {r s : List V3} {d : ℚ} {k : Nat}
    (h : minRes r s = some (d, k)) :
    0 ≤ d ∧ k < (distSeq r s).length := by
  have hall : (distSeq r s).all Option.isNone = false := by
    cases hall2 : (distSeq r s).all Option.isNone with
    | false => rfl
    | true =>
      unfold minRes at h
      rw [hall2] at h
      simp at h
  have hne : distSeq r s ≠ [] := by
    intro h0
    rw [h0] at hall
    simp at hall
  obtain ⟨mu, hmu⟩ := Option.isSome_iff_exists.mp (argminInf_isSome hall)
  have hav : argminInf (distSeq r s) = ((argminInf (distSeq r s)).1, some mu) := by
    rw [← hmu]
  unfold minRes at h
  rw [hall, hav] at h
  simp only [Bool.false_eq_true, if_false, Option.some.injEq, Prod.mk.injEq] at h
  obtain ⟨hd, hk⟩ := h
  have hklt := argminInf_fst_lt (distSeq r s) hne
  have hget := argminInf_get (distSeq r s) hne
  constructor
  · have hmem : some mu ∈ distSeq r s := by
      rw [← hmu, ← hget, List.getD_eq_getElem _ _ hklt]
      exact List.getElem_mem hklt
    obtain ⟨p, q, _, _, hpq⟩ := exists_of_mem_zipWith hmem
    have : relNormSq p q = some mu := hpq.symm
    rw [← hd]
    exact normSq_nonneg this
  · rw [← hk]
    exact hklt

/-- Every emitted tuple of the geometry engine comes from one scanned pair via the loop body. -/
theorem pmd_mem_inv {names : List String} {R : List (List V3)}
    {tup : String × String × ℚ × Nat} (h : tup ∈ pairwise_min_distance names R) :
    ∃ p ∈ pairsOf (names.zip R), minRes p.1.2 p.2.2 = some (tup.2.2.1, tup.2.2.2) ∧
      tup.1 = p.1.1 ∧ tup.2.1 = p.2.1 := by
  unfold pairwise_min_distance at h
  rw [pmdAux_eq] at h
  rcases List.mem_filterMap.mp h with ⟨p, hp, hf⟩
  cases hmr : minRes p.1.2 p.2.2 with
  | none =>
    rw [hmr] at hf
    simp at hf
  | some dk =>
    rw [hmr] at hf
    have htup : tup = (p.1.1, p.2.1, dk.1, dk.2) := by
      have := hf
      simp only [Option.map_some'] at this
      exact (Option.some.injEq _ _ |>.mp this).symm
    refine ⟨p, hp, ?_, ?_, ?_⟩
    · rw [htup, hmr]
    · rw [htup]
    · rw [htup]

/-- Every extracted position row has the common grid length. -/
theorem extractLoop_ok_lengths : ∀ (t0 : List ℚ) (l : List (String × Traj))
    (R : List (List V3)), extractLoop t0 l = .ok R → ∀ r ∈ R, r.length = t0.length := by
  intro t0 l
  induction l with
  | nil =>
    intro R h r hr
    unfold extractLoop at h
    simp only [Except.ok.injEq] at h
    rw [← h] at hr
    simp at hr
  | cons p rest ih =>
    intro R h r hr
    rcases p with ⟨n, df⟩
    unfold extractLoop at h
    by_cases hgrid : df.map Sample.t = t0
    · rw [if_pos hgrid] at h
      cases hrec : extractLoop t0 rest with
      | error e =>
        rw [hrec] at h
        simp at h
      | ok rs =>
        rw [hrec] at h
        simp only [Except.ok.injEq] at h
        rw [← h] at hr
        rcases List.mem_cons.mp hr with hr1 | hr2
        · rw [hr1, List.length_map]
          calc df.length = (df.map Sample.t).length := (List.length_map _ _).symm
            _ = t0.length := by rw [hgrid]
        · exact ih rs hrec r hr2
    · rw [if_neg hgrid] at h
      simp at h

/-- Inversion of a successful extraction: the loop succeeded against the first grid and the names are the keys in order. -/
theorem extract_ok_inv {states : List (String × Traj)} {names : List String}
    {R : List (List V3)} {times : List ℚ}
    (h : _extract_positions states = .ok (names, R, times)) :
    extractLoop times states = .ok R ∧ names = states.map Prod.fst := by
  cases states with
  | nil => simp [_extract_positions] at h
  | cons p rest =>
    rcases p with ⟨n0, df0⟩
    simp only [_extract_positions] at h
    cases hel : extractLoop (df0.map Sample.t) ((n0, df0) :: rest) with
    | error e =>
      rw [hel] at h
      simp at h
    | ok R2 =>
      rw [hel] at h
      simp only [Except.ok.injEq, Prod.mk.injEq] at h
      obtain ⟨h1, h2, h3⟩ := h
      constructor
      · rw [← h3, ← h2]
        exact hel
      · rw [← h1]

/-- C10: every tuple of the geometry engine has a nonnegative (hence finite) minimum and an index addressing the shared grid; consequently every screener row has a nonnegative distance strictly below the threshold, an in-range index, and the grid timestamp at that index. -/
theorem screen_row_invariants :
    (∀ (names : List String) (R : List (List V3)) (T : Nat),
      (∀ r ∈ R, r.length = T) →
      ∀ tup ∈ pairwise_min_distance names R, 0 ≤ tup.2.2.1 ∧ tup.2.2.2 < T) ∧
    (∀ (states : List (String × Traj)) (s : ℚ) (names : List String)
      (R : List (List V3)) (times : List ℚ) (tbl : DF ScreenRow),
      _extract_positions states = .ok (names, R, times) →
      coarse_screen states s = .ok tbl →
      ∀ row ∈ tbl.rows, 0 ≤ row.dminSq ∧ sqrtLt row.dminSq s = true ∧
        row.t_index < times.length ∧ row.time_utc = times.getD row.t_index 0) := by
  have hpart1 : ∀ (names : List String) (R : List (List V3)) (T : Nat),
      (∀ r ∈ R, r.length = T) →
      ∀ tup ∈ pairwise_min_distance names R, 0 ≤ tup.2.2.1 ∧ tup.2.2.2 < T := by
    intro names R T hT tup htup
    obtain ⟨p, hp, hmr, _, _⟩ := pmd_mem_inv htup
    obtain ⟨hd, hk⟩ := minRes_some_bounds hmr
    have hmem := pairsOf_mem_both _ p hp
    have hlen1 : p.1.2.length = T := hT _ (List.of_mem_zip hmem.1).2
    have hlen2 : p.2.2.length = T := hT _ (List.of_mem_zip hmem.2).2
    refine ⟨hd, ?_⟩
    have hdl : (distSeq p.1.2 p.2.2).length = T := by
      unfold distSeq
      rw [List.length_zipWith, hlen1, hlen2, min_self]
    omega
  refine ⟨hpart1, ?_⟩
  intro states s names R times tbl hex hscr row hrow
  have hTlen : ∀ r ∈ R, r.length = times.length := by
    obtain ⟨hloop, _⟩ := extract_ok_inv hex
    exact fun r hr => extractLoop_ok_lengths times states R hloop r hr
  simp only [coarse_screen, hex] at hscr
  by_cases h0 : pairwise_min_distance names R = []
  · rw [if_pos h0] at hscr
    simp only [Except.ok.injEq] at hscr
    rw [← hscr] at hrow
    simp at hrow
  · rw [if_neg h0] at hscr
    by_cases h1 : screenRows (pairwise_min_distance names R) times s = []
    · rw [if_pos h1] at hscr
      simp only [Except.ok.injEq] at hscr
      rw [← hscr] at hrow
      simp at hrow
    · rw [if_neg h1] at hscr
      simp only [Except.ok.injEq] at hscr
      rw [← hscr] at hrow
      have hrow2 : row ∈ screenRows (pairwise_min_distance names R) times s :=
        (List.mergeSort_perm _ _).mem_iff.mp hrow
      rcases List.mem_filterMap.mp hrow2 with ⟨tup, htup, hf⟩
      by_cases hlt : sqrtLt tup.2.2.1 s = true
      · rw [if_pos hlt] at hf
        simp only [Option.some.injEq] at hf
        obtain ⟨h0d, hkT⟩ := hpart1 names R times.length hTlen tup htup
        rw [← hf]
        exact ⟨h0d, hlt, hkT, rfl⟩
      · rw [if_neg hlt] at hf
        simp at hf

/-- Concrete screening input for the C10 witness, part 2: a single satellite, so no pairs are formed but extraction succeeds. -/
def wStatesC10 : List (String × Traj) :=
  [("A", [⟨0, some 0, some 0, some 0, some 0, some 0, some 0⟩,
          ⟨10, some 0, some 0, some 0, some 0, some 0, some 0⟩])]

/-- Concrete geometry input for the C10 witness, part 1. -/
def wRC10 : List (List V3) :=
  [[⟨some 0, some 0, some 0⟩, ⟨some 2, some 0, some 0⟩],
   [⟨some 5, some 0, some 0⟩, ⟨some 3, some 0, some 0⟩]]

/-- C10 witness: both parts of the theorem applied at concrete inputs, hypotheses discharged by evaluation. -/
theorem screen_row_invariants_witness :
    ((∀ r ∈ wRC10, r.length = 2) ∧
      ∀ tup ∈ pairwise_min_distance ["A", "B"] wRC10, 0 ≤ tup.2.2.1 ∧ tup.2.2.2 < 2) ∧
    ((_extract_positions wStatesC10 =
        .ok (["A"], [[⟨some 0, some 0, some 0⟩, ⟨some 0, some 0, some 0⟩]], [0, 10]) ∧
      coarse_screen wStatesC10 5 = .ok ⟨screenCols, []⟩) ∧
      ∀ row ∈ (DF.mk screenCols ([] : List ScreenRow)).rows, 0 ≤ row.dminSq ∧
        sqrtLt row.dminSq 5 = true ∧ row.t_index < ([0, 10] : List ℚ).length ∧
        row.time_utc = ([0, 10] : List ℚ).getD row.t_index 0) :=
  ⟨⟨by decide, screen_row_invariants.1 ["A", "B"] wRC10 2 (by decide)⟩,
    ⟨⟨by decide, by decide⟩,
      screen_row_invariants.2 wStatesC10 5 ["A"]
        [[⟨some 0, some 0, some 0⟩, ⟨some 0, some 0, some 0⟩]] [0, 10]
        ⟨screenCols, []⟩ (by decide) (by decide)⟩⟩

/-- Concrete screening input for the C4 witness: two satellites on the common grid 0, 10 s. -/
def wStatesC4 : List (String × Traj) :=
  [("A", [⟨0, some 0, some 0, some 0, some 0, some 0, some 0⟩,
          ⟨10, some 0, some 0, some 0, some 0, some 0, some 0⟩]),
   ("B", [⟨0, some 5, some 0, some 0, some 0, some 0, some 0⟩,
          ⟨10, some 2, some 0, some 0, some 0, some 0, some 0⟩])]

/-- The extracted names of the C4 witness input. -/
def wNamesC4 : List String := ["A", "B"]

/-- The extracted position rows of the C4 witness input. -/
def wRC4 : List (List V3) :=
  [[⟨some 0, some 0, some 0⟩, ⟨some 0, some 0, some 0⟩],
   [⟨some 5, some 0, some 0⟩, ⟨some 2, some 0, some 0⟩]]

/-- The extracted grid of the C4 witness input. -/
def wTimesC4 : List ℚ := [0, 10]

/-- C4 witness: the theorem applied at a concrete input, the extraction hypothesis discharged by evaluation. -/
theorem coarse_screen_exact_threshold_sorted_witness :
    _extract_positions wStatesC4 = .ok (wNamesC4, wRC4, wTimesC4) ∧
    (∃ tbl, coarse_screen wStatesC4 10 = .ok tbl ∧
      tbl.cols = screenCols ∧
      tbl.rows.Perm (((pairwise_min_distance wNamesC4 wRC4).filter fun tup =>
          sqrtLt tup.2.2.1 10).map fun tup =>
        ⟨tup.1, tup.2.1, tup.2.2.1, tup.2.2.2, wTimesC4.getD tup.2.2.2 0⟩) ∧
      List.Pairwise (fun r1 r2 => screenLe r1 r2 = true) tbl.rows) :=
  ⟨by decide,
    coarse_screen_exact_threshold_sorted wStatesC4 10 wNamesC4 wRC4 wTimesC4 (by decide)⟩

/-- Concrete screening input for the C8 witness: one pair, non-finite at every step, so no pair is retained at all. -/
def wStatesC8 : List (String × Traj) :=
  [("A", [⟨0, none, none, none, none, none, none⟩]),
   ("B", [⟨0, some 1, some 0, some 0, some 0, some 0, some 0⟩])]

/-- The extracted position rows of the C8 witness input. -/
def wRC8 : List (List V3) := [[⟨none, none, none⟩], [⟨some 1, some 0, some 0⟩]]

/-- C8 witness: the theorem applied at a concrete input, both hypotheses discharged by evaluation. -/
theorem coarse_screen_empty_schema_witness :
    (_extract_positions wStatesC8 = .ok (["A", "B"], wRC8, [0]) ∧
      ∀ tup ∈ pairwise_min_distance ["A", "B"] wRC8, sqrtLt tup.2.2.1 10 = false) ∧
    coarse_screen wStatesC8 10 = .ok ⟨screenCols, []⟩ :=
  ⟨⟨by decide, by decide⟩,
    coarse_screen_empty_schema wStatesC8 10 ["A", "B"] wRC8 [0] (by decide) (by decide)⟩

/-- Specification side: the first trajectory's grid, the reference the extraction checks every trajectory against. -/
def refGrid (states : List (String × Traj)) : List ℚ :=
  match states with
  | [] => []
  | (_, df) :: _ => df.map Sample.t

/-- The extraction loop fails exactly on a trajectory whose grid differs from the reference. -/
theorem extractLoop_error_iff : ∀ (t0 : List ℚ) (l : List (String × Traj)),
    (∃ e, extractLoop t0 l = .error e) ↔ ∃ p ∈ l, p.2.map Sample.t ≠ t0 := by
  intro t0 l
  induction l with
  | nil => simp [extractLoop]
  | cons p rest ih =>
    rcases p with ⟨n, df⟩
    constructor
    · rintro ⟨e, he⟩
      unfold extractLoop at he
      by_cases hgrid : df.map Sample.t = t0
      · rw [if_pos hgrid] at he
        cases hrec : extractLoop t0 rest with
        | error e2 =>
          obtain ⟨q, hq, hqt⟩ := ih.mp ⟨e2, hrec⟩
          exact ⟨q, List.mem_cons_of_mem _ hq, hqt⟩
        | ok rs =>
          rw [hrec] at he
          simp at he
      · exact ⟨(n, df), List.mem_cons_self _ _, hgrid⟩
    · rintro ⟨q, hq, hqt⟩
      by_cases hgrid : df.map Sample.t = t0
      · rcases List.mem_cons.mp hq with hq1 | hq2
        · rw [hq1] at hqt
          exact absurd hgrid hqt
        · obtain ⟨e, he⟩ := ih.mpr ⟨q, hq2, hqt⟩
          refine ⟨e, ?_⟩
          unfold extractLoop
          rw [if_pos hgrid, he]
      · refine ⟨"time grids differ between satellites; cannot screen coarsely", ?_⟩
        unfold extractLoop
        rw [if_neg hgrid]

/-- C6: given well-formed columns, position extraction (and hence coarse screening, for every threshold) raises exactly on empty input or on a grid differing from the first trajectory's grid; with one or more trajectories on identical grids it never raises. -/
theorem extract_positions_error_iff (states : List (String × Traj)) (s : ℚ) :
    ((∃ e, _extract_positions states = .error e) ↔
      states = [] ∨ ∃ p ∈ states, p.2.map Sample.t ≠ refGrid states) ∧
    ((∃ e, coarse_screen states s = .error e) ↔
      states = [] ∨ ∃ p ∈ states, p.2.map Sample.t ≠ refGrid states) := by
  have hmain : (∃ e, _extract_positions states = .error e) ↔
      states = [] ∨ ∃ p ∈ states, p.2.map Sample.t ≠ refGrid states := by
    cases states with
    | nil =>
      constructor
      · intro _
        exact Or.inl rfl
      · intro _
        exact ⟨"no states given", rfl⟩
    | cons p rest =>
      rcases p with ⟨n0, df0⟩
      have hgr : refGrid ((n0, df0) :: rest) = df0.map Sample.t := rfl
      have hstep : (∃ e, _extract_positions ((n0, df0) :: rest) = .error e) ↔
          ∃ e, extractLoop (df0.map Sample.t) ((n0, df0) :: rest) = .error e := by
        simp only [_extract_positions]
        cases hel : extractLoop (df0.map Sample.t) ((n0, df0) :: rest) with
        | error e => simp
        | ok R2 => simp
      rw [hstep, hgr, extractLoop_error_iff]
      constructor
      · intro h
        exact Or.inr h
      · intro h
        rcases h with h | h
        · exact absurd h (by simp)
        · exact h
  refine ⟨hmain, ?_⟩
  have hscr : (∃ e, coarse_screen states s = .error e) ↔
      (∃ e, _extract_positions states = .error e) := by
    simp only [coarse_screen]
    cases hex : _extract_positions states with
    | error e => simp
    | ok trip =>
      rcases trip with ⟨names, R, times⟩
      by_cases h0 : pairwise_min_distance names R = []
      · simp [h0]
      · by_cases h1 : screenRows (pairwise_min_distance names R) times s = []
        · simp [h0, h1]
        · simp [h0, h1]
  rw [hscr]
  exact hmain

/-- C7: when the clamped window collapses to a single index, refine_pair does not raise and returns the coarse sample at the hint directly: the grid timestamp, the norm of the relative position, and the norm of the relative velocity at the hint, with both indices equal to the hint and no interpolation performed. -/
theorem refine_pair_degenerate_window_fallback
    (df_a df_b : Traj) (hint window upsample : Nat)
    (hgrid : df_a.map Sample.t = df_b.map Sample.t)
    (hT : hint < df_a.length)
    (hcol : min (df_a.length - 1) (hint + window) ≤ hint - window) :
    refine_pair df_a df_b (some hint) window upsample =
      .ok ⟨(df_a.map Sample.t).getD hint 0,
        relNormSq (posOf (df_a.getD hint default)) (posOf (df_b.getD hint default)),
        relNormSq (velOf (df_a.getD hint default)) (velOf (df_b.getD hint default)),
        hint, hint⟩ := by
  have hT2 : hint < df_a.length := hT
  simp only [refine_pair]
  rw [if_neg (not_not_intro hgrid)]
  simp only [Option.getD_some]
  rw [if_pos (by rw [List.length_map]; exact hcol)]

/-- Concrete two-sample trajectory of satellite A for the C7 witness. -/
def wTrajAC7 : Traj :=
  [⟨0, some 0, some 0, some 0, some 0, some 0, some 0⟩,
   ⟨10, some 0, some 0, some 0, some 0, some 0, some 0⟩]

/-- Concrete two-sample trajectory of satellite B for the C7 witness. -/
def wTrajBC7 : Traj :=
  [⟨0, some 3, some 4, some 0, some 1, some 0, some 0⟩,
   ⟨10, some 3, some 0, some 0, some 1, some 0, some 0⟩]

/-- C7 witness: hint 1 with window 0 collapses the clamped window to the single index 1, and the theorem applies with every hypothesis discharged by evaluation. -/
theorem refine_pair_degenerate_window_fallback_witness :
    (wTrajAC7.map Sample.t = wTrajBC7.map Sample.t ∧ 1 < wTrajAC7.length ∧
      min (wTrajAC7.length - 1) (1 + 0) ≤ 1 - 0) ∧
    refine_pair wTrajAC7 wTrajBC7 (some 1) 0 7 =
      .ok ⟨(wTrajAC7.map Sample.t).getD 1 0,
        relNormSq (posOf (wTrajAC7.getD 1 default)) (posOf (wTrajBC7.getD 1 default)),
        relNormSq (velOf (wTrajAC7.getD 1 default)) (velOf (wTrajBC7.getD 1 default)),
        1, 1⟩ :=
  ⟨⟨by decide, by decide, by decide⟩,
    refine_pair_degenerate_window_fallback wTrajAC7 wTrajBC7 1 0 7 (by decide) (by decide)
      (by decide)⟩

/-- Trajectory of satellite A for the C2 evaluation: at rest at the origin over the uniform grid 0, 10, ..., 40 s. -/
def wTrajAC2 : Traj :=
  [⟨0, some 0, some 0, some 0, some 0, some 0, some 0⟩,
   ⟨10, some 0, some 0, some 0, some 0, some 0, some 0⟩,
   ⟨20, some 0, some 0, some 0, some 0, some 0, some 0⟩,
   ⟨30, some 0, some 0, some 0, some 0, some 0, some 0⟩,
   ⟨40, some 0, some 0, some 0, some 0, some 0, some 0⟩]

/-- Trajectory of satellite B for the C2 evaluation: approaches to 0 km at the second step, then recedes, so the coarse minimum index (the valid hint) is 1. -/
def wTrajBC2 : Traj :=
  [⟨0, some 10, some 0, some 0, some 1, some 0, some 0⟩,
   ⟨10, some 0, some 0, some 0, some 1, some 0, some 0⟩,
   ⟨20, some 10, some 0, some 0, some 1, some 0, some 0⟩,
   ⟨30, some 20, some 0, some 0, some 1, some 0, some 0⟩,
   ⟨40, some 30, some 0, some 0, some 1, some 0, some 0⟩]

/-- C2 (code evaluation): with the coarse-minimum hint 1, window 2 and upsample 20 on identical five-step grids — the premises of the refinement-invariant claim, mirroring the repository's own refine test — the window does not collapse (i0 = 0 < i1 = 3), and refine_pair raises KeyError instead of returning a refined DCA: t_window = times[0:4] is a pandas Series with integer labels 0..3, scalar indexing on it is label-based, and t_window[-1] has no label -1. -/
theorem refine_pair_window_branch_raises :
    refine_pair wTrajAC2 wTrajBC2 (some 1) 2 20 = .error "KeyError: -1" := by decide

/-- C3 (code evaluation): on an empty candidate table refine_candidates builds pd.DataFrame([]), which carries no columns at all, and sort_values(["dca_km", "a", "b"]) then raises KeyError — instead of returning an empty table with the refined-result schema. -/
theorem refine_candidates_empty_raises :
    refine_candidates [("A", [⟨0, some 7000, some 0, some 0, some 0, some 7, some 0⟩])] [] 3 10 =
      .error "KeyError: dca_km" := by decide

/-- Writing one array leaves every other array unchanged. -/
theorem hread_hwrite_ne {h : Heap} {w r : Nat} {v : List Val} (hne : r ≠ w) :
    hread (hwrite h w v) r = hread h r := by
  unfold hread hwrite
  rw [List.getD_eq_getElem?_getD, List.getD_eq_getElem?_getD,
    List.getElem?_set_ne (Ne.symm hne)]

/-- Writing preserves the heap size. -/
theorem hwrite_length (h : Heap) (w : Nat) (v : List Val) :
    (hwrite h w v).length = h.length :=
  List.length_set h w v

/-- Allocation leaves every existing array unchanged. -/
theorem hread_append_lt {h : Heap} {v : List Val} {r : Nat} (hr : r < h.length) :
    hread (h ++ [v]) r = hread h r := by
  unfold hread
  rw [List.getD_eq_getElem?_getD, List.getD_eq_getElem?_getD, List.getElem?_append,
    if_pos hr]

/-- The gap-fill inside _interp_component writes only to the array it was given. -/
theorem interp_component_heap {h : Heap} {ts : List ℚ} {yref : Nat} {tn : List ℚ}
    {r : Nat} (hne : r ≠ yref) :
    hread (_interp_component h ts yref tn).1 r = hread h r ∧
    (_interp_component h ts yref tn).1.length = h.length := by
  simp only [_interp_component]
  split_ifs with h1 h2
  · exact ⟨rfl, rfl⟩
  · exact ⟨rfl, rfl⟩
  · constructor
    · show hread (hwrite (hwrite h yref _) yref _) r = hread h r
      rw [hread_hwrite_ne hne, hread_hwrite_ne hne]
    · show (hwrite (hwrite h yref _) yref _).length = h.length
      rw [hwrite_length, hwrite_length]

/-- One column line of _interp_state allocates a fresh copy and gap-fills only that copy: every pre-existing array is untouched, and the heap only grows. -/
theorem interpColumn_heap {h : Heap} {ts : List ℚ} {src : Nat} {tn : List ℚ} {r : Nat}
    (hr : r < h.length) :
    hread (interpColumn h ts src tn).1 r = hread h r ∧
    h.length ≤ (interpColumn h ts src tn).1.length := by
  have hne : r ≠ h.length := by omega
  simp only [interpColumn, halloc]
  obtain ⟨he, hl⟩ := @interp_component_heap (h ++ [hread h src]) ts h.length tn r hne
  constructor
  · rw [he, hread_append_lt hr]
  · rw [hl, List.length_append]
    simp

/-- _interp_state leaves every pre-existing heap array unchanged: both trajectories it reads are only copied, never written. -/
theorem interp_state_heap : ∀ (h : Heap) (df : TrajH) (t_new : List ℚ) (r : Nat),
    r < h.length → hread (_interp_state h df t_new).1 r = hread h r := by
  intro h df tn r hr
  have step : ∀ (hh : Heap) (ts : List ℚ) (src : Nat) (tns : List ℚ), r < hh.length →
      hread (interpColumn hh ts src tns).1 r = hread hh r ∧
      r < (interpColumn hh ts src tns).1.length := by
    intro hh ts src tns hrr
    obtain ⟨he, hl⟩ := interpColumn_heap hrr
    exact ⟨he, lt_of_lt_of_le hrr hl⟩
  simp only [_interp_state]
  obtain ⟨e1, b1⟩ := step h _ df.rx _ hr
  obtain ⟨e2, b2⟩ := step _ _ df.ry _ b1
  obtain ⟨e3, b3⟩ := step _ _ df.rz _ b2
  obtain ⟨e4, b4⟩ := step _ _ df.vx _ b3
  obtain ⟨e5, b5⟩ := step _ _ df.vy _ b4
  obtain ⟨e6, _⟩ := step _ _ df.vz _ b5
  rw [e6, e5, e4, e3, e2, e1]

/-- C9: refinement never mutates its input trajectories.  The gap-fill of _interp_state operates only on the freshly allocated copies of the component columns, so every pre-existing array — in particular every time, position and velocity value of both inputs, finite or not — is unchanged; and refine_pair and refine_candidates leave the whole heap exactly as it was (their reachable branches only read). -/
theorem refine_no_mutation :
    (∀ (h : Heap) (df : TrajH) (t_new : List ℚ) (r : Nat), r < h.length →
      hread (_interp_state h df t_new).1 r = hread h r) ∧
    (∀ (h : Heap) (da db : TrajH) (idx_hint : Option Nat) (window upsample : Nat),
      (refinePairH h da db idx_hint window upsample).1 = h) ∧
    (∀ (h : Heap) (states : List (String × TrajH)) (candidates : List ScreenRow)
      (window upsample : Nat),
      (refineCandidatesH h states candidates window upsample).1 = h) :=
  ⟨interp_state_heap, fun _ _ _ _ _ _ => rfl, fun _ _ _ _ _ => rfl⟩

/-- C9 witness: a one-array heap holding a column with an invalid sample; interpolating a trajectory whose every column is that array leaves it unchanged. -/
theorem refine_no_mutation_witness :
    0 < ([[some 1, none, some 3]] : Heap).length ∧
    hread (_interp_state [[some 1, none, some 3]]
        ⟨[0, 10, 20], 0, 0, 0, 0, 0, 0⟩ [5]).1 0 = hread [[some 1, none, some 3]] 0 :=
  ⟨by decide,
    refine_no_mutation.1 [[some 1, none, some 3]] ⟨[0, 10, 20], 0, 0, 0, 0, 0, 0⟩ [5] 0
      (by decide)⟩
